import Mathlib

/-!
Verification of the Mandelbrot renderer core (`src/main.rs`).

Shallow embedding conventions:
* `f64` values are modelled by exact rationals `ℚ`; Rust's floating-point
  operations become the corresponding exact field operations (in `ℚ`,
  division by zero yields `0` rather than an IEEE infinity).
* `Complex<f64>` from the `num` crate becomes the structure
  `Mandelbrot.Complex` below, with the crate's componentwise addition,
  the usual product formula for multiplication, and `norm_sqr`.
* The mutable pixel byte buffer `&mut [u8]` becomes a `List ℕ` that is
  rewritten with `List.set`; a Rust panic (the `assert!` in `render`)
  becomes the `none` case of an `Option` result, so `none` means the
  call aborted without writing a byte.
* `u32` iteration counts become `ℕ`; the `as u8` truncation in `render`
  is the `% (128*2)` the source applies just before the cast, which
  already lands in `[0, 256)`.
-/

namespace Mandelbrot

/-- The `num::Complex<f64>` type, modelled with exact rational components. -/
structure Complex where
  re : ℚ
  im : ℚ
deriving DecidableEq, Repr

instance : Add Complex :=
  ⟨fun a b => ⟨a.re + b.re, a.im + b.im⟩⟩

instance : Mul Complex :=
  ⟨fun a b => ⟨a.re * b.re - a.im * b.im, a.re * b.im + a.im * b.re⟩⟩

/-- Squared norm, `Complex::norm_sqr`: `re*re + im*im`. -/
def Complex.norm_sqr (z : Complex) : ℚ :=
  z.re * z.re + z.im * z.im

/-- The loop body of `escape_time`: `i` is the current iteration index,
`fuel` the number of remaining iterations (`limit - i`), `z` the current
iterate.  Each step performs `z = z*z + c` and tests `z.norm_sqr() > 4.0`. -/
def escapeTimeGo (c : Complex) (z : Complex) (i fuel : ℕ) : Option ℕ :=
  match fuel with
  | 0 => none
  | Nat.succ fuel =>
    let z2 := z * z + c
    if 4 < z2.norm_sqr then some i else escapeTimeGo c z2 (i + 1) fuel

/-- The function `escape_time(c, limit)` from `src/main.rs`: iterate `z ← z*z + c`
from `z = 0` for at most `limit` steps, returning `some i` at the first
update whose squared norm exceeds `4`, else `none`. -/
def escape_time (c : Complex) (limit : ℕ) : Option ℕ :=
  escapeTimeGo c ⟨0, 0⟩ 0 limit

/-- The function `pixel_to_point(bounds, pixel, upper_left, lower_right)` from
`src/main.rs`.  `bounds` is `(width, height)`, `pixel` is
`(column, row)`. -/
def pixel_to_point (bounds : ℕ × ℕ) (pixel : ℕ × ℕ)
    (upper_left lower_right : Complex) : Complex :=
  let width := lower_right.re - upper_left.re
  let height := upper_left.im - lower_right.im
  ⟨upper_left.re + (pixel.1 : ℚ) * width / (bounds.1 : ℚ),
   upper_left.im - (pixel.2 : ℚ) * height / (bounds.2 : ℚ)⟩

/-- The byte `render` stores for one plane point: `0` for a bounded
point, `count % (128*2)` for `Some(count)` (the source's expression
before the `as u8` cast, which it already fits). -/
def renderByte (point : Complex) : ℕ :=
  match escape_time point 255 with
  | none => 0
  | some count => count % (128 * 2)

/-- The double loop of `render`: for each `row` then each `column`,
store the byte of the mapped plane point at index
`row * bounds.0 + column`. -/
def renderLoop (bounds : ℕ × ℕ) (upper_left lower_right : Complex)
    (pixels : List ℕ) : List ℕ :=
  (List.range bounds.2).foldl (fun buf row =>
    (List.range bounds.1).foldl (fun buf column =>
      buf.set (row * bounds.1 + column)
        (renderByte (pixel_to_point bounds (column, row) upper_left lower_right)))
      buf) pixels

/-- The function `render(pixels, bounds, upper_left, lower_right)` from `src/main.rs`:
the `assert!(pixels.len() == bounds.0 * bounds.1)` precedes every write,
so a mismatch aborts (modelled by `none`) with the buffer untouched. -/
def render (pixels : List ℕ) (bounds : ℕ × ℕ)
    (upper_left lower_right : Complex) : Option (List ℕ) :=
  if pixels.length = bounds.1 * bounds.2 then
    some (renderLoop bounds upper_left lower_right pixels)
  else none

/-- Fuelled worker for `chunks`: splits a list into consecutive chunks
of `w` elements (the last chunk may be shorter).  The fuel argument only
serves Lean's termination checker; `chunks` passes the list length,
which is enough whenever `0 < w`. -/
def chunksGo (w : ℕ) (fuel : ℕ) (l : List ℕ) : List (List ℕ) :=
  match fuel with
  | 0 => []
  | Nat.succ fuel =>
    match l with
    | [] => []
    | _ :: _ => l.take w :: chunksGo w fuel (l.drop w)

/-- Rust's `slice::chunks_mut(w)` for `0 < w` (Rust panics on `w = 0`):
consecutive chunks of `w` elements each, the last possibly shorter. -/
def chunks (w : ℕ) (l : List ℕ) : List (List ℕ) :=
  chunksGo w l.length l

/-- Sequences a list of `Option` results, failing if any entry failed:
the panic of any band's `render` call aborts `generate_field`. -/
def sequenceOption : List (Option (List ℕ)) → Option (List (List ℕ))
  | [] => some []
  | o :: rest => o.bind (fun a => (sequenceOption rest).map (fun as_ => a :: as_))

/-- The function `generate_field(size, pixels, upper_left, lower_right)` from
`src/main.rs`: split `pixels` into one-row bands with `chunks_mut`,
and render band `i` with bounds `(size.0, 1)` between the plane points
of pixels `(0, i)` and `(size.0, i + 1)`.  The rayon dispatch is
modelled by rendering every band on its own slice and reassembling;
`runBands` below models an arbitrary completion order. -/
def generate_field (size : ℕ × ℕ) (pixels : List ℕ)
    (upper_left lower_right : Complex) : Option (List ℕ) :=
  ((sequenceOption ((chunks size.1 pixels).enum.map (fun b =>
      render b.2 (size.1, 1)
        (pixel_to_point size (0, b.1) upper_left lower_right)
        (pixel_to_point size (size.1, b.1 + 1) upper_left lower_right)))).map
    List.flatten)

/-- Writes the list `bs` over `buf` starting at position `s`
(the effect of a band task writing its disjoint sub-slice back). -/
def writeSeg (buf : List ℕ) (s : ℕ) (bs : List ℕ) : List ℕ :=
  buf.take s ++ bs ++ buf.drop (s + bs.length)

/-- One band task of `generate_field` completing: band `i` renders its
own chunk of the original buffer and writes the result over its
disjoint region `[i*w, i*w + w)`.  A panicking band writes nothing. -/
def applyBand (size : ℕ × ℕ) (upper_left lower_right : Complex)
    (orig : List ℕ) (buf : List ℕ) (i : ℕ) : List ℕ :=
  match render ((chunks size.1 orig).getD i []) (size.1, 1)
      (pixel_to_point size (0, i) upper_left lower_right)
      (pixel_to_point size (size.1, i + 1) upper_left lower_right) with
  | some bs => writeSeg buf (i * size.1) bs
  | none => buf

/-- The band tasks of `generate_field` completing in the order given by
`order`: each writes its disjoint region of the shared buffer. -/
def runBands (size : ℕ × ℕ) (upper_left lower_right : Complex)
    (pixels : List ℕ) (order : List ℕ) : List ℕ :=
  order.foldl (applyBand size upper_left lower_right pixels) pixels

/-- The orbit of `0` under `z ← z*z + c`, written from the spec text for
the refinement claim: `specOrbit c n` is the value of `z` after `n`
updates. -/
def specOrbit (c : Complex) : ℕ → Complex
  | 0 => ⟨0, 0⟩
  | Nat.succ n => specOrbit c n * specOrbit c n + c

/-- The reference escape-time definition, written from the spec text:
the first zero-based index `i < limit` after whose update `|z|² > 4`,
and `none` (Bounded) if there is none. -/
def escapeTimeSpec (c : Complex) (limit : ℕ) : Option ℕ :=
  (List.range limit).find? (fun i => decide (4 < (specOrbit c (i + 1)).norm_sqr))

theorem Complex.mul_def (a b : Complex) :
    a * b = ⟨a.re * b.re - a.im * b.im, a.re * b.im + a.im * b.re⟩ := rfl

theorem Complex.add_def (a b : Complex) :
    a + b = ⟨a.re + b.re, a.im + b.im⟩ := rfl

theorem specOrbit_succ (c : Complex) (n : ℕ) :
    specOrbit c (n + 1) = specOrbit c n * specOrbit c n + c := rfl

/-- The loop of `escape_time`, started at iterate `k` with `fuel`
remaining steps, finds the first escaping index in `[k, k + fuel)`. -/
theorem escapeTimeGo_spec (c : Complex) :
    ∀ fuel k, escapeTimeGo c (specOrbit c k) k fuel =
      (List.range' k fuel).find? (fun i => decide (4 < (specOrbit c (i + 1)).norm_sqr)) := by
  intro fuel
  induction fuel with
  | zero => intro k; rfl
  | succ fuel ih =>
    intro k
    rw [List.range'_succ, escapeTimeGo]
    simp only [← specOrbit_succ]
    by_cases h : 4 < (specOrbit c (k + 1)).norm_sqr
    · rw [if_pos h, List.find?_cons_of_pos]
      simpa using h
    · rw [if_neg h, ih (k + 1), List.find?_cons_of_neg]
      simpa using h

theorem escape_time_eq_spec (c : Complex) (limit : ℕ) :
    escape_time c limit = escapeTimeSpec c limit := by
  have h0 : (⟨0, 0⟩ : Complex) = specOrbit c 0 := rfl
  rw [escape_time, h0, escapeTimeGo_spec c limit 0, escapeTimeSpec,
    List.range_eq_range']

theorem escape_time_lt (c : Complex) (limit i : ℕ)
    (h : escape_time c limit = some i) : i < limit := by
  rw [escape_time_eq_spec, escapeTimeSpec] at h
  have := List.mem_of_find?_eq_some h
  simpa using this

/-- C1: `escape_time` coincides with the reference escape-time
definition `escapeTimeSpec` (first zero-based index `i` whose update
leaves `|z|² ≤ 4`, `none` when no iterate escapes within `limit`), and
any returned index is `< limit`.  (Termination holds by construction:
`escape_time` is a total Lean function.) -/
theorem escape_time_correct (c : Complex) (limit : ℕ) :
    escape_time c limit = escapeTimeSpec c limit ∧
    ∀ i, escape_time c limit = some i → i < limit :=
  ⟨escape_time_eq_spec c limit, fun i hi => escape_time_lt c limit i hi⟩

/-- Any point whose squared norm exceeds `4` escapes at index `0`:
the first update computes `0*0 + c = c`. -/
theorem escape_time_first (c : Complex) (hc : 4 < c.norm_sqr) :
    ∀ limit, 0 < limit → escape_time c limit = some 0 := by
  intro limit hl
  obtain ⟨fuel, rfl⟩ : ∃ fuel, limit = fuel + 1 :=
    ⟨limit - 1, (Nat.succ_pred_eq_of_pos hl).symm⟩
  have hz : (⟨0, 0⟩ : Complex) * ⟨0, 0⟩ + c = c := by
    cases c
    simp [Complex.mul_def, Complex.add_def]
  rw [escape_time, escapeTimeGo]
  simp only [hz]
  rw [if_pos hc]

theorem escape_time_correct_witness :
    escape_time ⟨3, 0⟩ 1 = escapeTimeSpec ⟨3, 0⟩ 1 ∧ (0 : ℕ) < 1 :=
  ⟨(escape_time_correct ⟨3, 0⟩ 1).1,
   (escape_time_correct ⟨3, 0⟩ 1).2 0
     (escape_time_first ⟨3, 0⟩ (by norm_num [Complex.norm_sqr]) 1
       (by norm_num))⟩

/-- C7: For `|c| > 2` (equivalently `|c|² > 4`, stated on the
source's `norm_sqr` to stay in exact arithmetic) and any `limit ≥ 1`,
`escape_time(c, limit)` is `Some(0)`: the first update yields
`0*0 + c = c`, already outside the disk of radius 2. -/
theorem escape_time_outside_disk (c : Complex) (limit : ℕ)
    (hc : 4 < c.norm_sqr) (hl : 1 ≤ limit) :
    escape_time c limit = some 0 :=
  escape_time_first c hc limit hl

theorem escape_time_outside_disk_witness :
    escape_time ⟨3, 0⟩ 1 = some 0 :=
  escape_time_outside_disk ⟨3, 0⟩ 1 (by norm_num [Complex.norm_sqr]) (by norm_num)

/-- The loop of `escape_time` at the origin never escapes: the iterate
stays at `0`, whose squared norm is `0 ≤ 4`. -/
theorem escapeTimeGo_origin :
    ∀ fuel i, escapeTimeGo ⟨0, 0⟩ ⟨0, 0⟩ i fuel = none := by
  intro fuel
  induction fuel with
  | zero => intro i; rfl
  | succ fuel ih =>
    intro i
    have hz : (⟨0, 0⟩ : Complex) * ⟨0, 0⟩ + ⟨0, 0⟩ = ⟨0, 0⟩ := by
      simp [Complex.mul_def, Complex.add_def]
    rw [escapeTimeGo]
    simp only [hz]
    rw [if_neg (by norm_num [Complex.norm_sqr]), ih]

/-- C8: `escape_time(0+0i, limit)` is `Bounded` (`none`) for every
`limit`: the origin is a fixed point of `z ← z*z + c` and its squared
norm `0` never exceeds `4`. -/
theorem escape_time_origin (limit : ℕ) :
    escape_time ⟨0, 0⟩ limit = none :=
  escapeTimeGo_origin limit 0

/-- C4: `pixel_to_point` computes exactly the spec's interpolation
formula (in the exact-arithmetic model of `f64`), and maps the spec's
concrete test case `(100,100)`, pixel `(25,75)`,
`upper_left = (-1,1)`, `lower_right = (1,-1)` to exactly
`(-1/2, -1/2)`. -/
theorem pixel_to_point_formula (w h col row : ℕ) (ul lr : Complex)
    (hw : 0 < w) (hh : 0 < h) :
    pixel_to_point (w, h) (col, row) ul lr =
      ⟨ul.re + (col : ℚ) * (lr.re - ul.re) / (w : ℚ),
       ul.im - (row : ℚ) * (ul.im - lr.im) / (h : ℚ)⟩ ∧
    pixel_to_point (100, 100) (25, 75) ⟨-1, 1⟩ ⟨1, -1⟩ = ⟨-1/2, -1/2⟩ := by
  refine ⟨rfl, ?_⟩
  norm_num [pixel_to_point]

theorem pixel_to_point_formula_witness :
    pixel_to_point (100, 100) (25, 75) ⟨-1, 1⟩ ⟨1, -1⟩ = ⟨-1/2, -1/2⟩ :=
  (pixel_to_point_formula 100 100 25 75 ⟨-1, 1⟩ ⟨1, -1⟩ (by decide) (by decide)).2

/-- C6: For positive bounds and a rectangle satisfying the ordering
invariant, pixel `(0,0)` maps exactly to `upper_left` and pixel
`(width, height)` maps exactly to `lower_right`. -/
theorem pixel_to_point_corners (w h : ℕ) (ul lr : Complex)
    (hw : 0 < w) (hh : 0 < h) (hre : ul.re < lr.re) (him : lr.im < ul.im) :
    pixel_to_point (w, h) (0, 0) ul lr = ul ∧
    pixel_to_point (w, h) (w, h) ul lr = lr := by
  have hw0 : (w : ℚ) ≠ 0 := Nat.cast_ne_zero.mpr hw.ne'
  have hh0 : (h : ℚ) ≠ 0 := Nat.cast_ne_zero.mpr hh.ne'
  obtain ⟨a, b⟩ := ul
  obtain ⟨d, e⟩ := lr
  constructor
  · simp [pixel_to_point]
  · simp only [pixel_to_point, Complex.mk.injEq]
    constructor <;> field_simp

theorem pixel_to_point_corners_witness :
    pixel_to_point (1, 1) (0, 0) ⟨0, 1⟩ ⟨1, 0⟩ = ⟨0, 1⟩ ∧
    pixel_to_point (1, 1) (1, 1) ⟨0, 1⟩ ⟨1, 0⟩ = ⟨1, 0⟩ :=
  pixel_to_point_corners 1 1 ⟨0, 1⟩ ⟨1, 0⟩ (by decide) (by decide)
    (by norm_num) (by norm_num)

/-- C5: The size check of `render` comes first: on a length
mismatch the call aborts (`none`, modelling the `assert!` panic) with
no byte written — in this embedding an aborted call produces no output
buffer at all, so the caller's buffer is untouched — and on a matching
length the check never fires and the loop output is returned. -/
theorem render_size_check (pixels : List ℕ) (w h : ℕ) (ul lr : Complex) :
    (pixels.length ≠ w * h → render pixels (w, h) ul lr = none) ∧
    (pixels.length = w * h →
      render pixels (w, h) ul lr = some (renderLoop (w, h) ul lr pixels)) := by
  constructor <;> intro hl <;> simp [render, hl]

theorem render_size_check_witness :
    render [0] (2, 2) ⟨-1, 1⟩ ⟨1, -1⟩ = none ∧
    render [0, 0, 0, 0] (2, 2) ⟨-1, 1⟩ ⟨1, -1⟩ =
      some (renderLoop (2, 2) ⟨-1, 1⟩ ⟨1, -1⟩ [0, 0, 0, 0]) :=
  ⟨(render_size_check [0] 2 2 ⟨-1, 1⟩ ⟨1, -1⟩).1 (by decide),
   (render_size_check [0, 0, 0, 0] 2 2 ⟨-1, 1⟩ ⟨1, -1⟩).2 (by decide)⟩

/-- A fold whose every step preserves the buffer length preserves it
overall. -/
theorem foldl_length_invariant {α : Type} (g : List ℕ → α → List ℕ)
    (hg : ∀ b x, (g b x).length = b.length) :
    ∀ (l : List α) (b : List ℕ), (l.foldl g b).length = b.length := by
  intro l
  induction l with
  | nil => intro b; rfl
  | cons x l ih => intro b; rw [List.foldl_cons, ih, hg]

/-- Effect of the inner (column) loop of `render` on one buffer cell:
cells of row `row` (at indices `row*w + col`, `col < m`, inside the
buffer) receive their byte, all others are untouched. -/
theorem inner_getElem? (w : ℕ) (f : ℕ → ℕ → ℕ) (row : ℕ) :
    ∀ (m : ℕ) (b : List ℕ) (idx : ℕ),
      ((List.range m).foldl
          (fun buf col => buf.set (row * w + col) (f col row)) b)[idx]?
        = if row * w ≤ idx ∧ idx < row * w + m ∧ idx < b.length
          then some (f (idx - row * w) row) else b[idx]? := by
  intro m
  induction m with
  | zero =>
    intro b idx
    rw [List.range_zero, List.foldl_nil, if_neg]
    omega
  | succ m ih =>
    intro b idx
    rw [List.range_succ, List.foldl_append, List.foldl_cons, List.foldl_nil,
      List.getElem?_set]
    have hlen : ((List.range m).foldl
        (fun buf col => buf.set (row * w + col) (f col row)) b).length
        = b.length :=
      foldl_length_invariant _ (fun b x => List.length_set b _ _) _ b
    rw [hlen]
    by_cases he : row * w + m = idx
    · subst he
      by_cases hb : row * w + m < b.length
      · rw [if_pos rfl, if_pos hb, if_pos (by omega)]
        congr 1
        congr 1
        omega
      · rw [if_pos rfl, if_neg hb, if_neg (by omega)]
        exact (List.getElem?_eq_none (by omega)).symm
    · rw [if_neg he, ih]
      by_cases hc : row * w ≤ idx ∧ idx < row * w + m ∧ idx < b.length
      · rw [if_pos hc, if_pos (by omega)]
      · rw [if_neg hc, if_neg (by omega)]

/-- Effect of the full double loop of `render` on one buffer cell:
every cell with index `idx < n*w` inside the buffer holds the byte of
pixel `(idx % w, idx / w)`; beyond `n*w` the buffer is untouched. -/
theorem outer_getElem? (w : ℕ) (f : ℕ → ℕ → ℕ) :
    ∀ (n : ℕ) (b : List ℕ) (idx : ℕ),
      ((List.range n).foldl (fun buf row =>
          (List.range w).foldl
            (fun buf2 col => buf2.set (row * w + col) (f col row)) buf) b)[idx]?
        = if idx < n * w ∧ idx < b.length
          then some (f (idx % w) (idx / w)) else b[idx]? := by
  intro n
  induction n with
  | zero =>
    intro b idx
    rw [List.range_zero, List.foldl_nil, if_neg]
    omega
  | succ n ih =>
    intro b idx
    rw [List.range_succ, List.foldl_append, List.foldl_cons, List.foldl_nil,
      inner_getElem?, ih]
    have hlen : ((List.range n).foldl (fun buf row =>
        (List.range w).foldl
          (fun buf2 col => buf2.set (row * w + col) (f col row)) buf) b).length
        = b.length := by
      refine foldl_length_invariant _ (fun b x => ?_) _ b
      exact foldl_length_invariant _ (fun b y => List.length_set b _ _) _ b
    rw [hlen]
    have hsucc : (n + 1) * w = n * w + w := by ring
    by_cases hc : n * w ≤ idx ∧ idx < n * w + w ∧ idx < b.length
    · have hw : 0 < w := by omega
      have hdiv : idx / w = n :=
        Nat.div_eq_of_lt_le hc.1 (by rw [Nat.succ_mul]; exact hc.2.1)
      have hkey := Nat.div_add_mod idx w
      rw [hdiv, Nat.mul_comm w n] at hkey
      have hmod : idx % w = idx - n * w := by omega
      rw [if_pos hc, if_pos ⟨by rw [hsucc]; omega, hc.2.2⟩, hdiv, hmod]
    · rw [if_neg hc]
      by_cases hd : idx < n * w ∧ idx < b.length
      · rw [if_pos hd, if_pos ⟨by rw [hsucc]; omega, hd.2⟩]
      · rw [if_neg hd, if_neg (by rw [hsucc]; omega)]

theorem renderLoop_getElem? (w h : ℕ) (ul lr : Complex) (pixels : List ℕ)
    (idx : ℕ) :
    (renderLoop (w, h) ul lr pixels)[idx]?
      = if idx < h * w ∧ idx < pixels.length
        then some (renderByte (pixel_to_point (w, h) (idx % w, idx / w) ul lr))
        else pixels[idx]? :=
  outer_getElem? w
    (fun col row => renderByte (pixel_to_point (w, h) (col, row) ul lr))
    h pixels idx

theorem renderLoop_length (w h : ℕ) (ul lr : Complex) (pixels : List ℕ) :
    (renderLoop (w, h) ul lr pixels).length = pixels.length := by
  refine foldl_length_invariant _ (fun b x => ?_) _ pixels
  exact foldl_length_invariant _ (fun b y => List.length_set b _ _) _ b

/-- C2: On a correctly sized buffer, `render` succeeds and stores at
index `row*w + col` of pixel `(col, row)` the byte `0` for a `Bounded`
point and `i % 256` for `Escaped(i)`, with iteration limit `255`. -/
theorem render_pixel (pixels : List ℕ) (w h col row : ℕ) (ul lr : Complex)
    (hlen : pixels.length = w * h) (hcol : col < w) (hrow : row < h) :
    ∃ out, render pixels (w, h) ul lr = some out ∧
      out[row * w + col]? =
        some (match escape_time (pixel_to_point (w, h) (col, row) ul lr) 255 with
          | none => 0
          | some i => i % 256) := by
  refine ⟨renderLoop (w, h) ul lr pixels, by simp [render, hlen], ?_⟩
  rw [renderLoop_getElem?]
  have hidx : row * w + col < h * w := by
    calc row * w + col < row * w + w := by omega
    _ = (row + 1) * w := by ring
    _ ≤ h * w := Nat.mul_le_mul_right w hrow
  have hidx2 : row * w + col < pixels.length := by
    rw [hlen, Nat.mul_comm w h]
    exact hidx
  rw [if_pos ⟨hidx, hidx2⟩]
  have hw : 0 < w := by omega
  have hmod : (row * w + col) % w = col := by
    rw [Nat.add_comm, Nat.add_mul_mod_self_right, Nat.mod_eq_of_lt hcol]
  have hdiv : (row * w + col) / w = row := by
    rw [Nat.add_comm, Nat.add_mul_div_right _ _ hw, Nat.div_eq_of_lt hcol,
      Nat.zero_add]
  rw [hmod, hdiv]
  rfl

theorem render_pixel_witness :
    ∃ out, render [0, 0, 0, 0] (2, 2) ⟨-1, 1⟩ ⟨1, -1⟩ = some out ∧
      out[0 * 2 + 1]? =
        some (match escape_time (pixel_to_point (2, 2) (1, 0) ⟨-1, 1⟩ ⟨1, -1⟩) 255 with
          | none => 0
          | some i => i % 256) :=
  render_pixel [0, 0, 0, 0] 2 2 1 0 ⟨-1, 1⟩ ⟨1, -1⟩ (by decide) (by decide)
    (by decide)

/-- Fuel irrelevance: `chunksGo` ignores the exact fuel as long as it covers the list
length (for a positive chunk width). -/
theorem chunksGo_fuel (w : ℕ) (hw : 0 < w) :
    ∀ fuel₁ fuel₂ (l : List ℕ), l.length ≤ fuel₁ → l.length ≤ fuel₂ →
      chunksGo w fuel₁ l = chunksGo w fuel₂ l := by
  intro fuel₁
  induction fuel₁ with
  | zero =>
    intro fuel₂ l h1 h2
    have hl : l = [] := List.length_eq_zero.mp (Nat.le_zero.mp h1)
    subst hl
    cases fuel₂ <;> rfl
  | succ fuel ih =>
    intro fuel₂ l h1 h2
    cases l with
    | nil => cases fuel₂ <;> rfl
    | cons x xs =>
      cases fuel₂ with
      | zero => simp at h2
      | succ fuel₂ =>
        simp only [chunksGo]
        congr 1
        apply ih
        · rw [List.length_drop, List.length_cons]
          rw [List.length_cons] at h1
          omega
        · rw [List.length_drop, List.length_cons]
          rw [List.length_cons] at h2
          omega

/-- One unfolding of `chunks` on a nonempty list. -/
theorem chunks_cons_unfold (w : ℕ) (hw : 0 < w) (l : List ℕ) (hl : l ≠ []) :
    chunks w l = l.take w :: chunks w (l.drop w) := by
  obtain ⟨x, xs, rfl⟩ := List.exists_cons_of_ne_nil hl
  rw [chunks, List.length_cons]
  simp only [chunksGo]
  congr 1
  rw [chunks]
  apply chunksGo_fuel w hw
  · rw [List.length_drop, List.length_cons]
    omega
  · exact le_rfl

/-- For a buffer of length `w*h`, `chunks w` yields exactly the `h`
consecutive rows of width `w`. -/
theorem chunks_spec (w : ℕ) (hw : 0 < w) :
    ∀ (h : ℕ) (l : List ℕ), l.length = w * h →
      chunks w l = (List.range h).map (fun i => (l.drop (i * w)).take w) := by
  intro h
  induction h with
  | zero =>
    intro l hl
    rw [Nat.mul_zero] at hl
    have : l = [] := List.length_eq_zero.mp hl
    subst this
    rfl
  | succ h ih =>
    intro l hl
    have hmulpos : 0 < w * (h + 1) := Nat.mul_pos hw (by omega)
    have hne : l ≠ [] := by
      intro h0
      rw [h0] at hl
      simp only [List.length_nil] at hl
      omega
    rw [chunks_cons_unfold w hw l hne,
      ih (l.drop w) (by rw [List.length_drop, hl, Nat.mul_succ]; omega),
      List.range_succ_eq_map, List.map_cons, List.map_map]
    congr 1
    · simp
    · refine List.map_congr_left (fun i hi => ?_)
      simp only [Function.comp]
      rw [List.drop_drop, Nat.succ_mul, Nat.add_comm (i * w) w]

/-- The band geometry of `generate_field` is exact: mapping pixel
`(col, 0)` within a one-row band whose corners are the plane points of
pixels `(0, row)` and `(w, row + 1)` gives the same point as mapping
pixel `(col, row)` in the full image. -/
theorem band_pixel_to_point (w h col row : ℕ) (ul lr : Complex)
    (hw : 0 < w) :
    pixel_to_point (w, 1) (col, 0)
      (pixel_to_point (w, h) (0, row) ul lr)
      (pixel_to_point (w, h) (w, row + 1) ul lr)
    = pixel_to_point (w, h) (col, row) ul lr := by
  have hw0 : (w : ℚ) ≠ 0 := Nat.cast_ne_zero.mpr hw.ne'
  obtain ⟨a, b⟩ := ul
  obtain ⟨d, e⟩ := lr
  simp only [pixel_to_point, Complex.mk.injEq]
  constructor
  · push_cast
    field_simp
    try ring
  · push_cast
    simp

/-- If every entry of a mapped list succeeds, `sequenceOption` returns
the list of results. -/
theorem sequenceOption_map_some {β : Type} (F : β → Option (List ℕ))
    (G : β → List ℕ) :
    ∀ (l : List β), (∀ x ∈ l, F x = some (G x)) →
      sequenceOption (l.map F) = some (l.map G) := by
  intro l
  induction l with
  | nil => intro _; rfl
  | cons x xs ih =>
    intro hx
    simp only [List.map_cons, sequenceOption]
    simp [hx x (List.mem_cons_self x xs),
      ih (fun y hy => hx y (List.mem_cons_of_mem x hy))]

/-- Flattening a list of `w`-long rows gives a buffer of length
`count * w`. -/
theorem flatten_uniform_length (w : ℕ) :
    ∀ (L : List (List ℕ)), (∀ x ∈ L, x.length = w) →
      L.flatten.length = L.length * w := by
  intro L
  induction L with
  | nil => intro _; simp
  | cons x xs ih =>
    intro hx
    rw [List.flatten_cons, List.length_append,
      ih (fun y hy => hx y (List.mem_cons_of_mem x hy)),
      hx x (List.mem_cons_self x xs), List.length_cons, Nat.succ_mul]
    omega

/-- Cell `idx` of the flattening of `w`-long rows is cell `idx % w` of
row `idx / w`. -/
theorem flatten_uniform_getElem? (w : ℕ) (hw : 0 < w) :
    ∀ (L : List (List ℕ)), (∀ x ∈ L, x.length = w) → ∀ idx,
      L.flatten[idx]? = (L[idx / w]?).bind (fun x => x[idx % w]?) := by
  intro L
  induction L with
  | nil => intro _ idx; simp
  | cons x xs ih =>
    intro hx idx
    have hxlen : x.length = w := hx x (List.mem_cons_self x xs)
    rw [List.flatten_cons]
    by_cases hlt : idx < w
    · rw [List.getElem?_append, if_pos (by rw [hxlen]; exact hlt),
        Nat.div_eq_of_lt hlt, Nat.mod_eq_of_lt hlt]
      simp
    · push_neg at hlt
      rw [List.getElem?_append_right (by rw [hxlen]; exact hlt), hxlen,
        ih (fun y hy => hx y (List.mem_cons_of_mem x hy)) (idx - w)]
      obtain ⟨j, rfl⟩ : ∃ j, idx = j + w := ⟨idx - w, by omega⟩
      rw [Nat.add_sub_cancel, Nat.add_div_right j hw, Nat.add_mod_right j w,
        List.getElem?_cons_succ]

/-- Each chunk of a `w*h` buffer is a full row of `w` bytes. -/
theorem chunk_slice_length (w h i : ℕ) (pixels : List ℕ)
    (hlen : pixels.length = w * h) (hi : i < h) :
    ((pixels.drop (i * w)).take w).length = w := by
  rw [List.length_take, List.length_drop, hlen]
  have h1 : (i + 1) * w ≤ h * w := Nat.mul_le_mul_right w hi
  rw [Nat.succ_mul] at h1
  have h2 : w * h = h * w := Nat.mul_comm w h
  omega

/-- Membership in the enumerated chunk list of a `w*h` buffer. -/
theorem enum_chunks_mem (w h : ℕ) (pixels : List ℕ) (hw : 0 < w)
    (hlen : pixels.length = w * h) {b : ℕ × List ℕ}
    (hb : b ∈ (chunks w pixels).enum) :
    b.1 < h ∧ b.2 = (pixels.drop (b.1 * w)).take w := by
  rw [List.mem_enum_iff_getElem?, chunks_spec w hw h pixels hlen,
    List.getElem?_map] at hb
  by_cases hbh : b.1 < h
  · rw [List.getElem?_range hbh] at hb
    simp at hb
    exact ⟨hbh, hb.symm⟩
  · rw [List.getElem?_eq_none (by simpa using hbh)] at hb
    simp at hb

/-- A band's `render` call succeeds on its row chunk. -/
theorem band_render (w h i : ℕ) (ul lr : Complex) (pixels : List ℕ)
    (hlen : pixels.length = w * h) (hi : i < h) :
    render ((pixels.drop (i * w)).take w) (w, 1)
        (pixel_to_point (w, h) (0, i) ul lr)
        (pixel_to_point (w, h) (w, i + 1) ul lr)
      = some (renderLoop (w, 1)
          (pixel_to_point (w, h) (0, i) ul lr)
          (pixel_to_point (w, h) (w, i + 1) ul lr)
          ((pixels.drop (i * w)).take w)) := by
  rw [render, if_pos]
  rw [chunk_slice_length w h i pixels hlen hi, Nat.mul_one]

/-- Byte `j` of a rendered band is the full image's byte for pixel
`(j, i)`. -/
theorem bandBytes_getElem? (w h i j : ℕ) (ul lr : Complex)
    (pixels : List ℕ) (hw : 0 < w) (hlen : pixels.length = w * h)
    (hi : i < h) (hj : j < w) :
    (renderLoop (w, 1) (pixel_to_point (w, h) (0, i) ul lr)
        (pixel_to_point (w, h) (w, i + 1) ul lr)
        ((pixels.drop (i * w)).take w))[j]?
      = some (renderByte (pixel_to_point (w, h) (j, i) ul lr)) := by
  rw [renderLoop_getElem?, chunk_slice_length w h i pixels hlen hi,
    if_pos ⟨by omega, hj⟩, Nat.mod_eq_of_lt hj, Nat.div_eq_of_lt hj,
    band_pixel_to_point w h j i ul lr hw]

/-- Success case: `generate_field` on a correctly sized buffer produces
the flattened list of rendered bands. -/
theorem generate_field_some (w h : ℕ) (pixels : List ℕ) (ul lr : Complex)
    (hw : 0 < w) (hlen : pixels.length = w * h) :
    generate_field (w, h) pixels ul lr
      = some (((chunks w pixels).enum.map (fun b =>
          renderLoop (w, 1)
            (pixel_to_point (w, h) (0, b.1) ul lr)
            (pixel_to_point (w, h) (w, b.1 + 1) ul lr) b.2)).flatten) := by
  rw [generate_field,
    sequenceOption_map_some _
      (fun b : ℕ × List ℕ =>
        renderLoop (w, 1)
          (pixel_to_point (w, h) (0, b.1) ul lr)
          (pixel_to_point (w, h) (w, b.1 + 1) ul lr) b.2)
      _ (fun b hb => ?_)]
  · rfl
  · obtain ⟨hbh, hbeq⟩ := enum_chunks_mem w h pixels hw hlen hb
    have hbr := band_render w h b.1 ul lr pixels hlen hbh
    rw [← hbeq] at hbr
    simpa using hbr

/-- The flattened band list agrees with the sequential double loop. -/
theorem generate_field_eq_renderLoop (w h : ℕ) (pixels : List ℕ)
    (ul lr : Complex) (hw : 0 < w) (hlen : pixels.length = w * h) :
    generate_field (w, h) pixels ul lr
      = some (renderLoop (w, h) ul lr pixels) := by
  rw [generate_field_some w h pixels ul lr hw hlen]
  congr 1
  have hGlen : ∀ x ∈ (chunks w pixels).enum.map (fun b : ℕ × List ℕ =>
      renderLoop (w, 1)
        (pixel_to_point (w, h) (0, b.1) ul lr)
        (pixel_to_point (w, h) (w, b.1 + 1) ul lr) b.2), x.length = w := by
    intro x hx
    rw [List.mem_map] at hx
    obtain ⟨b, hb, rfl⟩ := hx
    obtain ⟨hbh, hbeq⟩ := enum_chunks_mem w h pixels hw hlen hb
    rw [renderLoop_length, hbeq]
    exact chunk_slice_length w h b.1 pixels hlen hbh
  apply List.ext_getElem?
  intro idx
  rw [flatten_uniform_getElem? w hw _ hGlen idx, renderLoop_getElem?]
  have hplen : pixels.length = h * w := by rw [hlen, Nat.mul_comm]
  by_cases hx : idx < h * w
  · have hdivlt : idx / w < h := (Nat.div_lt_iff_lt_mul hw).mpr hx
    have hchunksElem : (chunks w pixels)[idx / w]?
        = some ((pixels.drop ((idx / w) * w)).take w) := by
      rw [chunks_spec w hw h pixels hlen, List.getElem?_map,
        List.getElem?_range hdivlt, Option.map_some']
    rw [List.getElem?_map, List.getElem?_enum, hchunksElem,
      Option.map_some', Option.map_some', Option.some_bind,
      if_pos ⟨hx, by omega⟩]
    exact bandBytes_getElem? w h (idx / w) (idx % w) ul lr pixels hw hlen
      hdivlt (Nat.mod_lt idx hw)
  · have hcount : (chunks w pixels).length = h := by
      rw [chunks_spec w hw h pixels hlen, List.length_map, List.length_range]
    have hnone : ((chunks w pixels).enum.map (fun b : ℕ × List ℕ =>
        renderLoop (w, 1)
          (pixel_to_point (w, h) (0, b.1) ul lr)
          (pixel_to_point (w, h) (w, b.1 + 1) ul lr) b.2))[idx / w]? = none := by
      apply List.getElem?_eq_none
      rw [List.length_map, List.enum_length, hcount]
      exact Nat.le_div_iff_mul_le hw |>.mpr (by omega)
    rw [hnone, Option.none_bind, if_neg (by omega)]
    exact (List.getElem?_eq_none (by omega)).symm

theorem writeSeg_length (buf bs : List ℕ) (s : ℕ)
    (hs : s + bs.length ≤ buf.length) :
    (writeSeg buf s bs).length = buf.length := by
  rw [writeSeg, List.length_append, List.length_append, List.length_take,
    List.length_drop]
  have hmin : s ⊓ buf.length = s := min_eq_left (by omega)
  rw [hmin]
  omega

theorem writeSeg_getElem? (buf bs : List ℕ) (s idx : ℕ)
    (hs : s + bs.length ≤ buf.length) :
    (writeSeg buf s bs)[idx]? =
      if s ≤ idx ∧ idx < s + bs.length then bs[idx - s]? else buf[idx]? := by
  rw [writeSeg]
  have htake : (buf.take s).length = s := by
    rw [List.length_take]
    exact min_eq_left (by omega)
  have hlen2 : (buf.take s ++ bs).length = s + bs.length := by
    rw [List.length_append, htake]
  by_cases h2 : idx < s + bs.length
  · rw [List.getElem?_append, hlen2, if_pos h2, List.getElem?_append, htake]
    by_cases h1 : idx < s
    · rw [if_pos h1, List.getElem?_take, if_pos h1, if_neg (by omega)]
    · rw [if_neg h1, if_pos (by omega)]
  · push_neg at h2
    rw [List.getElem?_append_right (by rw [hlen2]; omega), hlen2,
      List.getElem?_drop, if_neg (by omega)]
    congr 1
    omega

theorem applyBand_some (w h : ℕ) (ul lr : Complex) (orig buf : List ℕ)
    (i : ℕ) (bs : List ℕ)
    (hr : render ((chunks w orig).getD i []) (w, 1)
        (pixel_to_point (w, h) (0, i) ul lr)
        (pixel_to_point (w, h) (w, i + 1) ul lr) = some bs) :
    applyBand (w, h) ul lr orig buf i = writeSeg buf (i * w) bs := by
  rw [applyBand]
  show (match render ((chunks w orig).getD i []) (w, 1)
      (pixel_to_point (w, h) (0, i) ul lr)
      (pixel_to_point (w, h) (w, i + 1) ul lr) with
    | some bs => writeSeg buf (i * w) bs
    | none => buf) = writeSeg buf (i * w) bs
  rw [hr]

theorem applyBand_none (w h : ℕ) (ul lr : Complex) (orig buf : List ℕ)
    (i : ℕ)
    (hr : render ((chunks w orig).getD i []) (w, 1)
        (pixel_to_point (w, h) (0, i) ul lr)
        (pixel_to_point (w, h) (w, i + 1) ul lr) = none) :
    applyBand (w, h) ul lr orig buf i = buf := by
  rw [applyBand]
  show (match render ((chunks w orig).getD i []) (w, 1)
      (pixel_to_point (w, h) (0, i) ul lr)
      (pixel_to_point (w, h) (w, i + 1) ul lr) with
    | some bs => writeSeg buf (i * w) bs
    | none => buf) = buf
  rw [hr]

/-- The chunk a band task reads, when its index is a real row. -/
theorem chunks_getD_lt (w h i : ℕ) (pixels : List ℕ) (hw : 0 < w)
    (hlen : pixels.length = w * h) (hi : i < h) :
    (chunks w pixels).getD i [] = (pixels.drop (i * w)).take w := by
  rw [List.getD_eq_getElem?_getD, chunks_spec w hw h pixels hlen,
    List.getElem?_map, List.getElem?_range hi, Option.map_some']
  rfl

theorem chunks_getD_ge (w h i : ℕ) (pixels : List ℕ) (hw : 0 < w)
    (hlen : pixels.length = w * h) (hi : ¬ i < h) :
    (chunks w pixels).getD i [] = [] := by
  rw [List.getD_eq_getElem?_getD, List.getElem?_eq_none]
  · rfl
  · rw [chunks_spec w hw h pixels hlen, List.length_map, List.length_range]
    omega

/-- Effect of one band task completing on one buffer cell: inside the
band's disjoint region the full image's byte appears, outside it the
buffer is untouched (an out-of-range band index panics its `render`
call and writes nothing). -/
theorem applyBand_getElem? (w h : ℕ) (ul lr : Complex)
    (pixels buf : List ℕ) (hw : 0 < w) (hlen : pixels.length = w * h)
    (hbuf : buf.length = w * h) (i idx : ℕ) :
    (applyBand (w, h) ul lr pixels buf i)[idx]? =
      if i < h ∧ i * w ≤ idx ∧ idx < i * w + w
      then some (renderByte (pixel_to_point (w, h) (idx % w, idx / w) ul lr))
      else buf[idx]? := by
  by_cases hi : i < h
  · rw [applyBand_some w h ul lr pixels buf i _
      (by rw [chunks_getD_lt w h i pixels hw hlen hi]
          exact band_render w h i ul lr pixels hlen hi)]
    have hbslen : (renderLoop (w, 1) (pixel_to_point (w, h) (0, i) ul lr)
        (pixel_to_point (w, h) (w, i + 1) ul lr)
        ((pixels.drop (i * w)).take w)).length = w := by
      rw [renderLoop_length]
      exact chunk_slice_length w h i pixels hlen hi
    have hs : i * w + w ≤ buf.length := by
      have h1 : (i + 1) * w ≤ h * w := Nat.mul_le_mul_right w hi
      rw [show (i + 1) * w = i * w + w from by ring] at h1
      have h2 : buf.length = h * w := by rw [hbuf, Nat.mul_comm]
      omega
    rw [writeSeg_getElem? buf _ (i * w) idx (by rw [hbslen]; exact hs),
      hbslen]
    by_cases hcov : i * w ≤ idx ∧ idx < i * w + w
    · rw [if_pos hcov, if_pos ⟨hi, hcov.1, hcov.2⟩,
        bandBytes_getElem? w h i (idx - i * w) ul lr pixels hw hlen hi
          (by omega)]
      have hdiv : idx / w = i :=
        Nat.div_eq_of_lt_le hcov.1
          (by rw [show (i + 1) * w = i * w + w from by ring]; exact hcov.2)
      have hkey := Nat.div_add_mod idx w
      rw [hdiv, Nat.mul_comm w i] at hkey
      have hmod : idx % w = idx - i * w := by omega
      rw [hdiv, hmod]
    · rw [if_neg hcov, if_neg (fun hcon => hcov ⟨hcon.2.1, hcon.2.2⟩)]
  · rw [applyBand_none w h ul lr pixels buf i
      (by rw [chunks_getD_ge w h i pixels hw hlen hi, render, if_neg]
          simp
          omega),
      if_neg (fun hcon => hi hcon.1)]

theorem applyBand_length (w h : ℕ) (ul lr : Complex)
    (pixels buf : List ℕ) (hw : 0 < w) (hlen : pixels.length = w * h)
    (hbuf : buf.length = w * h) (i : ℕ) :
    (applyBand (w, h) ul lr pixels buf i).length = buf.length := by
  by_cases hi : i < h
  · rw [applyBand_some w h ul lr pixels buf i _
      (by rw [chunks_getD_lt w h i pixels hw hlen hi]
          exact band_render w h i ul lr pixels hlen hi)]
    apply writeSeg_length
    rw [renderLoop_length, chunk_slice_length w h i pixels hlen hi]
    have h1 : (i + 1) * w ≤ h * w := Nat.mul_le_mul_right w hi
    rw [show (i + 1) * w = i * w + w from by ring] at h1
    have h2 : buf.length = h * w := by rw [hbuf, Nat.mul_comm]
    omega
  · rw [applyBand_none w h ul lr pixels buf i
      (by rw [chunks_getD_ge w h i pixels hw hlen hi, render, if_neg]
          simp
          omega)]

/-- Band tasks completing in any order: a cell covered by some band in
the order holds the full image's byte; all other cells keep the
original buffer's contents. -/
theorem runBands_getElem? (w h : ℕ) (ul lr : Complex) (pixels : List ℕ)
    (hw : 0 < w) (hlen : pixels.length = w * h) :
    ∀ (order : List ℕ) (buf : List ℕ), buf.length = w * h → ∀ idx,
      (order.foldl (applyBand (w, h) ul lr pixels) buf)[idx]? =
        if ∃ i ∈ order, i < h ∧ i * w ≤ idx ∧ idx < i * w + w
        then some (renderByte (pixel_to_point (w, h) (idx % w, idx / w) ul lr))
        else buf[idx]? := by
  intro order
  induction order with
  | nil =>
    intro buf hbuf idx
    rw [List.foldl_nil, if_neg]
    simp
  | cons i rest ih =>
    intro buf hbuf idx
    rw [List.foldl_cons,
      ih (applyBand (w, h) ul lr pixels buf i)
        (by rw [applyBand_length w h ul lr pixels buf hw hlen hbuf i, hbuf])
        idx]
    by_cases hrest : ∃ j ∈ rest, j < h ∧ j * w ≤ idx ∧ idx < j * w + w
    · obtain ⟨j, hjm, hj⟩ := hrest
      rw [if_pos ⟨j, hjm, hj⟩, if_pos ⟨j, List.mem_cons_of_mem i hjm, hj⟩]
    · rw [if_neg hrest,
        applyBand_getElem? w h ul lr pixels buf hw hlen hbuf i idx]
      by_cases hcov : i < h ∧ i * w ≤ idx ∧ idx < i * w + w
      · rw [if_pos hcov, if_pos ⟨i, List.mem_cons_self i rest, hcov⟩]
      · rw [if_neg hcov, if_neg ?_]
        rintro ⟨j, hjm, hj⟩
        rcases List.mem_cons.mp hjm with hji | hjr
        · exact hcov (hji ▸ hj)
        · exact hrest ⟨j, hjr, hj⟩

/-- C3: For positive bounds, a rectangle satisfying the ordering
invariant and a correctly sized buffer, the band-parallel
`generate_field` produces exactly the buffer of a single sequential
`render` call, and the bands may complete in any order (any permutation
of the row indices) without changing the resulting buffer. -/
theorem generate_field_deterministic (w h : ℕ) (pixels : List ℕ)
    (ul lr : Complex) (hw : 0 < w) (hh : 0 < h)
    (hre : ul.re < lr.re) (him : lr.im < ul.im)
    (hlen : pixels.length = w * h) :
    generate_field (w, h) pixels ul lr = render pixels (w, h) ul lr ∧
    ∀ order, order.Perm (List.range h) →
      some (runBands (w, h) ul lr pixels order)
        = render pixels (w, h) ul lr := by
  have hrender : render pixels (w, h) ul lr
      = some (renderLoop (w, h) ul lr pixels) := by
    rw [render, if_pos hlen]
  have hplen : pixels.length = h * w := by rw [hlen, Nat.mul_comm]
  constructor
  · rw [hrender]
    exact generate_field_eq_renderLoop w h pixels ul lr hw hlen
  · intro order hperm
    rw [hrender]
    congr 1
    apply List.ext_getElem?
    intro idx
    rw [runBands,
      runBands_getElem? w h ul lr pixels hw hlen order pixels hlen idx,
      renderLoop_getElem?]
    by_cases hx : idx < h * w
    · have hdivlt : idx / w < h := (Nat.div_lt_iff_lt_mul hw).mpr hx
      have hcond : ∃ i ∈ order, i < h ∧ i * w ≤ idx ∧ idx < i * w + w := by
        refine ⟨idx / w, ?_, hdivlt, Nat.div_mul_le_self idx w, ?_⟩
        · rw [hperm.mem_iff, List.mem_range]
          exact hdivlt
        · have hkey := Nat.div_add_mod idx w
          have hm := Nat.mod_lt idx hw
          rw [Nat.mul_comm w (idx / w)] at hkey
          omega
      rw [if_pos hcond, if_pos ⟨hx, by omega⟩]
    · have hncond : ¬ ∃ i ∈ order, i < h ∧ i * w ≤ idx ∧ idx < i * w + w := by
        rintro ⟨i, _, hi, h1, h2⟩
        have h3 : (i + 1) * w ≤ h * w := Nat.mul_le_mul_right w hi
        rw [show (i + 1) * w = i * w + w from by ring] at h3
        omega
      rw [if_neg hncond, if_neg (by omega)]

theorem generate_field_deterministic_witness :
    generate_field (2, 2) [0, 0, 0, 0] ⟨-1, 1⟩ ⟨1, -1⟩
      = render [0, 0, 0, 0] (2, 2) ⟨-1, 1⟩ ⟨1, -1⟩ ∧
    some (runBands (2, 2) ⟨-1, 1⟩ ⟨1, -1⟩ [0, 0, 0, 0] [1, 0])
      = render [0, 0, 0, 0] (2, 2) ⟨-1, 1⟩ ⟨1, -1⟩ :=
  ⟨(generate_field_deterministic 2 2 [0, 0, 0, 0] ⟨-1, 1⟩ ⟨1, -1⟩
      (by decide) (by decide) (by norm_num) (by norm_num) (by decide)).1,
   (generate_field_deterministic 2 2 [0, 0, 0, 0] ⟨-1, 1⟩ ⟨1, -1⟩
      (by decide) (by decide) (by norm_num) (by norm_num) (by decide)).2
     [1, 0] (by decide)⟩

/-- With the limit fixed at `255`, no pixel byte can be `255`. -/
theorem renderByte_ne (point : Complex) : renderByte point ≠ 255 := by
  rw [renderByte]
  cases he : escape_time point 255 with
  | none => decide
  | some count =>
    have hlt : count < 255 := escape_time_lt point 255 count he
    show count % (128 * 2) ≠ 255
    omega

/-- C10: With `render`'s limit fixed at `255`, every escape index
is at most `254`, so the `% 256` wrap is the identity; the byte `255`
never occurs in a rendered buffer; and the byte `0` arises both from
`Bounded` points and from points escaping at index `0`, which are
therefore indistinguishable in the output. -/
theorem render_byte_range :
    (∀ (c : Complex) (i : ℕ), escape_time c 255 = some i →
      i ≤ 254 ∧ i % 256 = i) ∧
    (∀ (pixels : List ℕ) (w h : ℕ) (ul lr : Complex) (out : List ℕ),
      render pixels (w, h) ul lr = some out → ∀ b ∈ out, b ≠ 255) ∧
    (∀ point : Complex, escape_time point 255 = none →
      renderByte point = 0) ∧
    (∀ point : Complex, escape_time point 255 = some 0 →
      renderByte point = 0) := by
  refine ⟨fun c i hi => ?_, fun pixels w h ul lr out hout b hb => ?_,
    fun point hp => ?_, fun point hp => ?_⟩
  · have := escape_time_lt c 255 i hi
    omega
  · rw [render] at hout
    split_ifs at hout with hsz
    · have hout' : renderLoop (w, h) ul lr pixels = out :=
        Option.some.inj hout
      subst hout'
      rw [List.mem_iff_getElem?] at hb
      obtain ⟨idx, hidx⟩ := hb
      rw [renderLoop_getElem?] at hidx
      by_cases hcase : idx < h * w ∧ idx < pixels.length
      · rw [if_pos hcase] at hidx
        have hb2 : renderByte
            (pixel_to_point (w, h) (idx % w, idx / w) ul lr) = b :=
          Option.some.inj hidx
        rw [← hb2]
        exact renderByte_ne _
      · rw [if_neg hcase] at hidx
        have hlt : idx < pixels.length := by
          rcases List.getElem?_eq_some.mp hidx with ⟨hl, _⟩
          exact hl
        have hsz' : pixels.length = h * w := by
          simpa [Nat.mul_comm] using hsz
        omega
  · rw [renderByte, hp]
  · rw [renderByte, hp]

theorem render_byte_range_witness :
    ((0 : ℕ) ≤ 254 ∧ 0 % 256 = 0) ∧
    (∀ b ∈ ([] : List ℕ), b ≠ 255) ∧
    renderByte ⟨0, 0⟩ = 0 ∧
    renderByte ⟨3, 0⟩ = 0 :=
  ⟨render_byte_range.1 ⟨3, 0⟩ 0
     (escape_time_first ⟨3, 0⟩ (by norm_num [Complex.norm_sqr]) 255
       (by norm_num)),
   render_byte_range.2.1 [] 0 0 ⟨0, 0⟩ ⟨0, 0⟩ [] rfl,
   render_byte_range.2.2.1 ⟨0, 0⟩ (escapeTimeGo_origin 255 0),
   render_byte_range.2.2.2 ⟨3, 0⟩
     (escape_time_first ⟨3, 0⟩ (by norm_num [Complex.norm_sqr]) 255
       (by norm_num))⟩

end Mandelbrot
